import Mathlib

/-!
Shallow embedding of `src/mmult.cpp` (willkill07/MatrixMultBenchmark): a
benchmark of dense square matrix multiplication under all six nestings of
the `i`, `j`, `k` loops.  Matrices are embedded as total functions
`ℕ → ℕ → ℤ` (only indices below `N` are ever read or written), the kernel's
triple loop as nested `List.foldl`s over `List.range N`, and the driver as
structural recursion over the configured size and order lists.
-/

namespace MMult

/-- `ValueType = int`; matrix scalars are embedded as unbounded integers. -/
abbrev Mat := ℕ → ℕ → ℤ

/-- `const uint32_t CHECKSUM_MAX {10000}` (src/mmult.cpp:27). -/
def CHECKSUM_MAX : ℕ := 10000

/-- `getIndex<char, Value, L1, L2, L3>(0)` (src/mmult.cpp:243-253): the
position of letter `v` among `(l1, l2, l3)`, with the base template
returning `0` when the letter is absent. -/
def getIndex (v l1 l2 l3 : Char) : ℕ :=
  if v = l1 then 0 else if v = l2 then 1 else if v = l3 then 2 else 0

/-- `std::get<p>(std::tie(i, j, k))` as used by the `_` macro
(src/mmult.cpp:257-258): pick the physical loop counter at position `p`. -/
def select (p i j k : ℕ) : ℕ :=
  if p = 0 then i else if p = 1 then j else k

/-- A single `+=` into one cell of the accumulator:
`C[r][c] += v`, leaving every other cell unchanged. -/
def bump (C : Mat) (r c : ℕ) (v : ℤ) : Mat :=
  fun x y => if x = r ∧ y = c then C x y + v else C x y

/-- The loop body `C[_(i)][_(j)] += A[_(i)][_(k)] * B[_(k)][_(j)]`
(src/mmult.cpp:266) for template letters `(l1, l2, l3)` at physical
counters `(i, j, k)`. -/
def step (l1 l2 l3 : Char) (A B : Mat) (C : Mat) (i j k : ℕ) : Mat :=
  let ri := select (getIndex 'i' l1 l2 l3) i j k
  let rj := select (getIndex 'j' l1 l2 l3) i j k
  let rk := select (getIndex 'k' l1 l2 l3) i j k
  bump C ri rj (A ri rk * B rk rj)

/-- `multiply<L1, L2, L3>` (src/mmult.cpp:260-269): the physical loops are
always `i` outer, `j` middle, `k` inner over `[0, N)`; the template letters
only rebind which physical counter plays each logical role.  The timing
side channel is not part of the embedded value. -/
def multiply (l1 l2 l3 : Char) (A B : Mat) (C : Mat) (N : ℕ) : Mat :=
  (List.range N).foldl (fun Ci i =>
    (List.range N).foldl (fun Cj j =>
      (List.range N).foldl (fun Ck k => step l1 l2 l3 A B Ck i j k) Cj) Ci) C

/-- The all-zero accumulator (`std::fill_n (C.data(), ..., 0)`). -/
def zeroMat : Mat := fun _ _ => 0

/-- The standard matrix product entry `(A × B)[r][c] = Σ_k A[r][k]·B[k][c]`. -/
def matProd (A B : Mat) (N : ℕ) (r c : ℕ) : ℤ :=
  ∑ k in Finset.range N, A r k * B k c

/-- The logical role triple `(row, col, reduction)` bound by the `_` macro
for label letters `(l1, l2, l3)` at physical counters `(i, j, k)`:
`(_(i), _(j), _(k))`. -/
def roleTriple (l1 l2 l3 : Char) (i j k : ℕ) : ℕ × ℕ × ℕ :=
  (select (getIndex 'i' l1 l2 l3) i j k,
   select (getIndex 'j' l1 l2 l3) i j k,
   select (getIndex 'k' l1 l2 l3) i j k)

/-- The post-loop checksum (src/mmult.cpp:202-206):
`std::accumulate (C.data(), C.data() + min (CHECKSUM_MAX, N*N), 0)` over the
row-major flat data of `C`; flat index `t` is cell `(t / N, t % N)`. -/
def checksum (C : Mat) (N : ℕ) : ℤ :=
  ((List.range (min CHECKSUM_MAX (N * N))).map (fun t => C (t / N) (t % N))).sum

/-! ### Generic fold lemmas for the triple loop -/

theorem list_range_map_sum (f : ℕ → ℤ) (n : ℕ) :
    ((List.range n).map f).sum = ∑ t in Finset.range n, f t := by
  induction n with
  | zero => simp
  | succ m ih => rw [List.range_succ, Finset.sum_range_succ, List.map_append, List.sum_append, ih]; simp

theorem foldl_add_apply (f : Mat → ℕ → Mat) (g : ℕ → ℤ) (r c : ℕ)
    (h : ∀ C t, f C t r c = C r c + g t) :
    ∀ (L : List ℕ) (C : Mat), (L.foldl f C) r c = C r c + (L.map g).sum := by
  intro L
  induction L with
  | nil => intro C; simp
  | cons a L ih =>
    intro C
    rw [List.foldl_cons, ih (f C a), h C a, List.map_cons, List.sum_cons]
    ring

theorem bump_apply (C : Mat) (r' c' r c : ℕ) (v : ℤ) :
    bump C r' c' v r c = C r c + (if r = r' ∧ c = c' then v else 0) := by
  by_cases h : r = r' ∧ c = c' <;> simp [bump, h]

theorem step_apply (l1 l2 l3 : Char) (A B C : Mat) (i j k r c : ℕ) :
    step l1 l2 l3 A B C i j k r c
      = C r c +
        (if r = select (getIndex 'i' l1 l2 l3) i j k ∧
            c = select (getIndex 'j' l1 l2 l3) i j k
         then A (select (getIndex 'i' l1 l2 l3) i j k)
                (select (getIndex 'k' l1 l2 l3) i j k)
              * B (select (getIndex 'k' l1 l2 l3) i j k)
                  (select (getIndex 'j' l1 l2 l3) i j k)
         else 0) := by
  simp only [step]
  exact bump_apply _ _ _ _ _ _

/-- Closed form for one kernel invocation: the final accumulator cell
`(r, c)` is the initial cell plus the triple sum of the guarded products. -/
theorem multiply_apply (l1 l2 l3 : Char) (A B C : Mat) (N r c : ℕ) :
    multiply l1 l2 l3 A B C N r c
      = C r c +
        ∑ i in Finset.range N, ∑ j in Finset.range N, ∑ k in Finset.range N,
          (if r = select (getIndex 'i' l1 l2 l3) i j k ∧
              c = select (getIndex 'j' l1 l2 l3) i j k
           then A (select (getIndex 'i' l1 l2 l3) i j k)
                  (select (getIndex 'k' l1 l2 l3) i j k)
                * B (select (getIndex 'k' l1 l2 l3) i j k)
                    (select (getIndex 'j' l1 l2 l3) i j k)
           else 0) := by
  have hinner : ∀ (i j : ℕ) (Cj : Mat),
      ((List.range N).foldl (fun Ck k => step l1 l2 l3 A B Ck i j k) Cj) r c
        = Cj r c + ∑ k in Finset.range N,
            (if r = select (getIndex 'i' l1 l2 l3) i j k ∧
                c = select (getIndex 'j' l1 l2 l3) i j k
             then A (select (getIndex 'i' l1 l2 l3) i j k)
                    (select (getIndex 'k' l1 l2 l3) i j k)
                  * B (select (getIndex 'k' l1 l2 l3) i j k)
                      (select (getIndex 'j' l1 l2 l3) i j k)
             else 0) := by
    intro i j Cj
    rw [foldl_add_apply _ _ r c (fun C t => step_apply l1 l2 l3 A B C i j t r c),
      list_range_map_sum]
  have hmid : ∀ (i : ℕ) (Ci : Mat),
      ((List.range N).foldl (fun Cj j =>
          (List.range N).foldl (fun Ck k => step l1 l2 l3 A B Ck i j k) Cj) Ci) r c
        = Ci r c + ∑ j in Finset.range N, ∑ k in Finset.range N,
            (if r = select (getIndex 'i' l1 l2 l3) i j k ∧
                c = select (getIndex 'j' l1 l2 l3) i j k
             then A (select (getIndex 'i' l1 l2 l3) i j k)
                    (select (getIndex 'k' l1 l2 l3) i j k)
                  * B (select (getIndex 'k' l1 l2 l3) i j k)
                      (select (getIndex 'j' l1 l2 l3) i j k)
             else 0) := by
    intro i Ci
    rw [foldl_add_apply _ _ r c (fun C t => hinner i t C), list_range_map_sum]
  rw [multiply, foldl_add_apply _ _ r c (fun C t => hmid t C), list_range_map_sum]

/-! ### Dispatch table and concrete matrices -/

/-- `FUNCTION_MAP` (src/mmult.cpp:114-121): the six label strings mapped to
their kernel instantiations, in the key order of the `std::map`. -/
def FUNCTION_MAP : List (String × (Mat → Mat → Mat → ℕ → Mat)) :=
  [("ijk", multiply 'i' 'j' 'k'), ("ikj", multiply 'i' 'k' 'j'),
   ("jik", multiply 'j' 'i' 'k'), ("jki", multiply 'j' 'k' 'i'),
   ("kij", multiply 'k' 'i' 'j'), ("kji", multiply 'k' 'j' 'i')]

/-- `FUNCTION_MAP.at (order)` (src/mmult.cpp:167): `none` models the thrown
`std::out_of_range` for unknown labels. -/
def lookupFn (order : String) : Option (Mat → Mat → Mat → ℕ → Mat) :=
  (FUNCTION_MAP.find? (fun p => p.1 == order)).map (fun p => p.2)

/-- The six valid loop-order labels, in `std::map` key order. -/
def SIX_ORDERS : List String := ["ijk", "ikj", "jik", "jki", "kij", "kji"]

/-- The label strings paired with their template characters, as produced by
`CREATE_MAPPING` (`Char<0>{X}, Char<1>{X}, Char<2>{X}`, src/mmult.cpp:111-112). -/
def ROLE_LIST : List (String × Char × Char × Char) :=
  [("ijk", 'i', 'j', 'k'), ("ikj", 'i', 'k', 'j'), ("jik", 'j', 'i', 'k'),
   ("jki", 'j', 'k', 'i'), ("kij", 'k', 'i', 'j'), ("kji", 'k', 'j', 'i')]

/-- The concrete 2×2 input `A = [[1,2],[3,4]]` of the spec scenario. -/
def A2 : Mat := fun r c => if r = 0 then (if c = 0 then 1 else 2) else (if c = 0 then 3 else 4)

/-- The concrete 2×2 input `B = [[5,6],[7,8]]` of the spec scenario. -/
def B2 : Mat := fun r c => if r = 0 then (if c = 0 then 5 else 6) else (if c = 0 then 7 else 8)

/-! ### Per-label correctness of the kernel -/

theorem sum_guard_const (n : ℕ) (P : Prop) [Decidable P] (f : ℕ → ℤ) :
    (∑ t in Finset.range n, if P then f t else 0)
      = if P then (∑ t in Finset.range n, f t) else 0 := by
  by_cases h : P <;> simp [h]

theorem multiply_ijk_eq (A B C : Mat) (N r c : ℕ) (hr : r < N) (hc : c < N) :
    multiply 'i' 'j' 'k' A B C N r c = C r c + matProd A B N r c := by
  rw [multiply_apply]
  have h1 : ∀ i j k : ℕ, select (getIndex 'i' 'i' 'j' 'k') i j k = i := fun _ _ _ => rfl
  have h2 : ∀ i j k : ℕ, select (getIndex 'j' 'i' 'j' 'k') i j k = j := fun _ _ _ => rfl
  have h3 : ∀ i j k : ℕ, select (getIndex 'k' 'i' 'j' 'k') i j k = k := fun _ _ _ => rfl
  simp only [h1, h2, h3]
  congr 1
  simp [matProd, ite_and, sum_guard_const, Finset.sum_ite_eq, Finset.mem_range, hr, hc]

theorem multiply_ikj_eq (A B C : Mat) (N r c : ℕ) (hr : r < N) (hc : c < N) :
    multiply 'i' 'k' 'j' A B C N r c = C r c + matProd A B N r c := by
  rw [multiply_apply]
  have h1 : ∀ i j k : ℕ, select (getIndex 'i' 'i' 'k' 'j') i j k = i := fun _ _ _ => rfl
  have h2 : ∀ i j k : ℕ, select (getIndex 'j' 'i' 'k' 'j') i j k = k := fun _ _ _ => rfl
  have h3 : ∀ i j k : ℕ, select (getIndex 'k' 'i' 'k' 'j') i j k = j := fun _ _ _ => rfl
  simp only [h1, h2, h3]
  congr 1
  simp [matProd, ite_and, sum_guard_const, Finset.sum_ite_eq, Finset.mem_range, hr, hc]

theorem multiply_jik_eq (A B C : Mat) (N r c : ℕ) (hr : r < N) (hc : c < N) :
    multiply 'j' 'i' 'k' A B C N r c = C r c + matProd A B N r c := by
  rw [multiply_apply]
  have h1 : ∀ i j k : ℕ, select (getIndex 'i' 'j' 'i' 'k') i j k = j := fun _ _ _ => rfl
  have h2 : ∀ i j k : ℕ, select (getIndex 'j' 'j' 'i' 'k') i j k = i := fun _ _ _ => rfl
  have h3 : ∀ i j k : ℕ, select (getIndex 'k' 'j' 'i' 'k') i j k = k := fun _ _ _ => rfl
  simp only [h1, h2, h3]
  congr 1
  simp [matProd, ite_and, sum_guard_const, Finset.sum_ite_eq, Finset.mem_range, hr, hc]

theorem multiply_jki_eq (A B C : Mat) (N r c : ℕ) (hr : r < N) (hc : c < N) :
    multiply 'j' 'k' 'i' A B C N r c = C r c + matProd A B N r c := by
  rw [multiply_apply]
  have h1 : ∀ i j k : ℕ, select (getIndex 'i' 'j' 'k' 'i') i j k = k := fun _ _ _ => rfl
  have h2 : ∀ i j k : ℕ, select (getIndex 'j' 'j' 'k' 'i') i j k = i := fun _ _ _ => rfl
  have h3 : ∀ i j k : ℕ, select (getIndex 'k' 'j' 'k' 'i') i j k = j := fun _ _ _ => rfl
  simp only [h1, h2, h3]
  congr 1
  simp [matProd, ite_and, sum_guard_const, Finset.sum_ite_eq, Finset.mem_range, hr, hc]

theorem multiply_kij_eq (A B C : Mat) (N r c : ℕ) (hr : r < N) (hc : c < N) :
    multiply 'k' 'i' 'j' A B C N r c = C r c + matProd A B N r c := by
  rw [multiply_apply]
  have h1 : ∀ i j k : ℕ, select (getIndex 'i' 'k' 'i' 'j') i j k = j := fun _ _ _ => rfl
  have h2 : ∀ i j k : ℕ, select (getIndex 'j' 'k' 'i' 'j') i j k = k := fun _ _ _ => rfl
  have h3 : ∀ i j k : ℕ, select (getIndex 'k' 'k' 'i' 'j') i j k = i := fun _ _ _ => rfl
  simp only [h1, h2, h3]
  congr 1
  simp [matProd, ite_and, sum_guard_const, Finset.sum_ite_eq, Finset.mem_range, hr, hc]

theorem multiply_kji_eq (A B C : Mat) (N r c : ℕ) (hr : r < N) (hc : c < N) :
    multiply 'k' 'j' 'i' A B C N r c = C r c + matProd A B N r c := by
  rw [multiply_apply]
  have h1 : ∀ i j k : ℕ, select (getIndex 'i' 'k' 'j' 'i') i j k = k := fun _ _ _ => rfl
  have h2 : ∀ i j k : ℕ, select (getIndex 'j' 'k' 'j' 'i') i j k = j := fun _ _ _ => rfl
  have h3 : ∀ i j k : ℕ, select (getIndex 'k' 'k' 'j' 'i') i j k = i := fun _ _ _ => rfl
  simp only [h1, h2, h3]
  congr 1
  simp [matProd, ite_and, sum_guard_const, Finset.sum_ite_eq, Finset.mem_range, hr, hc]

/-- Claim C1: for every one of the six valid loop order labels and every N,
running the dispatched `multiply` kernel on N×N matrices A and B with a
zeroed accumulator produces the standard matrix product A×B, independent of
the label; in particular for N = 2, A = [[1,2],[3,4]], B = [[5,6],[7,8]],
every order yields C = [[19,22],[43,50]] with checksum 134. -/
theorem C1_multiply_order_invariant :
    (∀ order ∈ SIX_ORDERS, ∀ f, lookupFn order = some f →
       ∀ (A B : Mat) (N r c : ℕ), r < N → c < N →
         f A B zeroMat N r c = matProd A B N r c)
    ∧ (∀ order ∈ SIX_ORDERS, ∀ f, lookupFn order = some f →
         (f A2 B2 zeroMat 2 0 0 = 19 ∧ f A2 B2 zeroMat 2 0 1 = 22 ∧
          f A2 B2 zeroMat 2 1 0 = 43 ∧ f A2 B2 zeroMat 2 1 1 = 50) ∧
         checksum (f A2 B2 zeroMat 2) 2 = 134) := by
  constructor
  · intro order horder f hf A B N r c hr hc
    simp only [SIX_ORDERS, List.mem_cons, List.not_mem_nil, or_false] at horder
    rcases horder with rfl | rfl | rfl | rfl | rfl | rfl <;>
      [(rw [show lookupFn "ijk" = some (multiply 'i' 'j' 'k') from rfl] at hf);
       (rw [show lookupFn "ikj" = some (multiply 'i' 'k' 'j') from rfl] at hf);
       (rw [show lookupFn "jik" = some (multiply 'j' 'i' 'k') from rfl] at hf);
       (rw [show lookupFn "jki" = some (multiply 'j' 'k' 'i') from rfl] at hf);
       (rw [show lookupFn "kij" = some (multiply 'k' 'i' 'j') from rfl] at hf);
       (rw [show lookupFn "kji" = some (multiply 'k' 'j' 'i') from rfl] at hf)] <;>
    · injection hf with hf
      subst hf
      first
      | simpa [zeroMat] using multiply_ijk_eq A B zeroMat N r c hr hc
      | simpa [zeroMat] using multiply_ikj_eq A B zeroMat N r c hr hc
      | simpa [zeroMat] using multiply_jik_eq A B zeroMat N r c hr hc
      | simpa [zeroMat] using multiply_jki_eq A B zeroMat N r c hr hc
      | simpa [zeroMat] using multiply_kij_eq A B zeroMat N r c hr hc
      | simpa [zeroMat] using multiply_kji_eq A B zeroMat N r c hr hc
  · intro order horder f hf
    simp only [SIX_ORDERS, List.mem_cons, List.not_mem_nil, or_false] at horder
    rcases horder with rfl | rfl | rfl | rfl | rfl | rfl <;>
      [(rw [show lookupFn "ijk" = some (multiply 'i' 'j' 'k') from rfl] at hf);
       (rw [show lookupFn "ikj" = some (multiply 'i' 'k' 'j') from rfl] at hf);
       (rw [show lookupFn "jik" = some (multiply 'j' 'i' 'k') from rfl] at hf);
       (rw [show lookupFn "jki" = some (multiply 'j' 'k' 'i') from rfl] at hf);
       (rw [show lookupFn "kij" = some (multiply 'k' 'i' 'j') from rfl] at hf);
       (rw [show lookupFn "kji" = some (multiply 'k' 'j' 'i') from rfl] at hf)] <;>
    · injection hf with hf
      subst hf
      exact ⟨⟨by decide, by decide, by decide, by decide⟩, by decide⟩

/-- Witness for C1: the "jki" kernel at the spec's 2×2 scenario. -/
theorem C1_multiply_order_invariant_witness :
    multiply 'j' 'k' 'i' A2 B2 zeroMat 2 1 0 = matProd A2 B2 2 1 0 ∧
    checksum (multiply 'j' 'k' 'i' A2 B2 zeroMat 2) 2 = 134 :=
  ⟨C1_multiply_order_invariant.1 "jki" (by decide) _ rfl A2 B2 2 1 0 (by decide) (by decide),
   (C1_multiply_order_invariant.2 "jki" (by decide) _ rfl).2⟩

/-- Claim C5: for every one of the six valid labels, the axis binding is a
bijection: the three logical roles (row, column, reduction) occupy the three
loop positions in a permutation of `{0, 1, 2}`, and consequently each
`(row, col, red)` combination in `[0, N)³` is visited by exactly one
physical iteration `(i, j, k)` of the kernel's loop nest. -/
theorem C5_axis_binding_bijection :
    ∀ p ∈ ROLE_LIST,
      ([getIndex 'i' p.2.1 p.2.2.1 p.2.2.2,
        getIndex 'j' p.2.1 p.2.2.1 p.2.2.2,
        getIndex 'k' p.2.1 p.2.2.1 p.2.2.2].Perm [0, 1, 2])
      ∧ (∀ N r c kk : ℕ, r < N → c < N → kk < N →
          ∃! t : ℕ × ℕ × ℕ, (t.1 < N ∧ t.2.1 < N ∧ t.2.2 < N) ∧
            roleTriple p.2.1 p.2.2.1 p.2.2.2 t.1 t.2.1 t.2.2 = (r, c, kk)) := by
  intro p hp
  simp only [ROLE_LIST, List.mem_cons, List.not_mem_nil, or_false] at hp
  rcases hp with rfl | rfl | rfl | rfl | rfl | rfl <;> refine ⟨by decide, ?_⟩ <;>
    intro N r c kk hr hc hkk
  · -- "ijk": roles (i, j, k)
    refine ⟨(r, c, kk), ⟨⟨hr, hc, hkk⟩, rfl⟩, ?_⟩
    rintro ⟨i, j, k⟩ ⟨-, heq⟩
    have h : ((i, j, k) : ℕ × ℕ × ℕ) = (r, c, kk) := heq
    exact h
  · -- "ikj": roles (i, k, j)
    refine ⟨(r, kk, c), ⟨⟨hr, hkk, hc⟩, rfl⟩, ?_⟩
    rintro ⟨i, j, k⟩ ⟨-, heq⟩
    have h : ((i, k, j) : ℕ × ℕ × ℕ) = (r, c, kk) := heq
    injection h with h1 h23; injection h23 with h2 h3
    subst h1; subst h2; subst h3; rfl
  · -- "jik": roles (j, i, k)
    refine ⟨(c, r, kk), ⟨⟨hc, hr, hkk⟩, rfl⟩, ?_⟩
    rintro ⟨i, j, k⟩ ⟨-, heq⟩
    have h : ((j, i, k) : ℕ × ℕ × ℕ) = (r, c, kk) := heq
    injection h with h1 h23; injection h23 with h2 h3
    subst h1; subst h2; subst h3; rfl
  · -- "jki": roles (k, i, j)
    refine ⟨(c, kk, r), ⟨⟨hc, hkk, hr⟩, rfl⟩, ?_⟩
    rintro ⟨i, j, k⟩ ⟨-, heq⟩
    have h : ((k, i, j) : ℕ × ℕ × ℕ) = (r, c, kk) := heq
    injection h with h1 h23; injection h23 with h2 h3
    subst h1; subst h2; subst h3; rfl
  · -- "kij": roles (j, k, i)
    refine ⟨(kk, r, c), ⟨⟨hkk, hr, hc⟩, rfl⟩, ?_⟩
    rintro ⟨i, j, k⟩ ⟨-, heq⟩
    have h : ((j, k, i) : ℕ × ℕ × ℕ) = (r, c, kk) := heq
    injection h with h1 h23; injection h23 with h2 h3
    subst h1; subst h2; subst h3; rfl
  · -- "kji": roles (k, j, i)
    refine ⟨(kk, c, r), ⟨⟨hkk, hc, hr⟩, rfl⟩, ?_⟩
    rintro ⟨i, j, k⟩ ⟨-, heq⟩
    have h : ((k, j, i) : ℕ × ℕ × ℕ) = (r, c, kk) := heq
    injection h with h1 h23; injection h23 with h2 h3
    subst h1; subst h2; subst h3; rfl

/-- Witness for C5: the "jki" binding at N = 3, (row, col, red) = (0, 1, 2). -/
theorem C5_axis_binding_bijection_witness :
    ([getIndex 'i' 'j' 'k' 'i', getIndex 'j' 'j' 'k' 'i',
      getIndex 'k' 'j' 'k' 'i'].Perm [0, 1, 2])
    ∧ (∃! t : ℕ × ℕ × ℕ, (t.1 < 3 ∧ t.2.1 < 3 ∧ t.2.2 < 3) ∧
        roleTriple 'j' 'k' 'i' t.1 t.2.1 t.2.2 = (0, 1, 2)) := by
  have h := C5_axis_binding_bijection ("jki", 'j', 'k', 'i') (by decide)
  exact ⟨h.1, h.2 3 0 1 2 (by decide) (by decide) (by decide)⟩

/-! ### Trial runner (`runSingle`, src/mmult.cpp:195-207) -/

/-- The division node `1.0 * timeSum / TRIALS` (src/mmult.cpp:204), kept as
an explicit numerator/denominator pair so the divisor is observable. -/
structure AvgDiv where
  num : ℚ
  den : ℚ

/-- Evaluate the division node. -/
def avgValue (d : AvgDiv) : ℚ := d.num / d.den

/-- The average-time division performed by `runSingle`: the summed per-trial
elapsed microseconds over the configured trial count. -/
def runSingleDiv (trials : ℕ) (times : ℕ → ℕ) : AvgDiv :=
  ⟨(((List.range trials).map times).sum : ℚ), (trials : ℚ)⟩

/-- `runSingle` (src/mmult.cpp:195-207): per trial, refill the accumulator
with zeros and invoke the kernel, summing elapsed times; afterwards return
the real-valued average time and the checksum of the final accumulator.
`times t` is the (nondeterministic) integer microsecond count measured for
trial `t`; the kernel's value behaviour is `mmult` itself. -/
def runSingle (trials : ℕ) (times : ℕ → ℕ)
    (mmult : Mat → Mat → Mat → ℕ → Mat) (A B C0 : Mat) (N : ℕ) : ℚ × ℤ :=
  let C := (List.range trials).foldl (fun _ _ => mmult A B zeroMat N) C0
  (avgValue (runSingleDiv trials times), checksum C N)

theorem list_range_map_sum_nat (f : ℕ → ℕ) (n : ℕ) :
    ((List.range n).map f).sum = ∑ t in Finset.range n, f t := by
  induction n with
  | zero => simp
  | succ m ih => rw [List.range_succ, Finset.sum_range_succ, List.map_append, List.sum_append, ih]; simp

theorem foldl_const_of_ne_nil (x : Mat) :
    ∀ (L : List ℕ), L ≠ [] → ∀ (C0 : Mat), L.foldl (fun _ _ => x) C0 = x := by
  intro L
  induction L with
  | nil => intro h; exact absurd rfl h
  | cons a L ih =>
    intro _ C0
    rcases L with - | ⟨b, L'⟩
    · rfl
    · exact ih (by simp) x

/-- Claim C3: the checksum returned by the trial runner is the sum of the
first `min(10000, N*N)` row-major elements of the accumulator after the
last trial; elements past the cap are excluded; for N = 0 the checksum is 0
and the kernel's loop nest executes zero iterations. -/
theorem C3_checksum_cap :
    (∀ (trials : ℕ) (times : ℕ → ℕ) (mmult : Mat → Mat → Mat → ℕ → Mat)
        (A B C0 : Mat) (N : ℕ), 1 ≤ trials →
      (runSingle trials times mmult A B C0 N).2
        = ∑ t in Finset.range (min 10000 (N * N)),
            (mmult A B zeroMat N) (t / N) (t % N))
    ∧ (∀ (trials : ℕ) (times : ℕ → ℕ) (mmult : Mat → Mat → Mat → ℕ → Mat)
        (A B C0 : Mat), (runSingle trials times mmult A B C0 0).2 = 0)
    ∧ (∀ (l1 l2 l3 : Char) (A B C : Mat), multiply l1 l2 l3 A B C 0 = C) := by
  refine ⟨?_, ?_, ?_⟩
  · intro trials times mmult A B C0 N htr
    have hne : List.range trials ≠ [] := by
      simp [List.range_eq_nil]
      omega
    simp only [runSingle, foldl_const_of_ne_nil _ _ hne]
    rw [checksum, list_range_map_sum]
    rfl
  · intro trials times mmult A B C0
    simp [runSingle, checksum]
  · intro l1 l2 l3 A B C
    rfl

/-- Witness for C3: 5 trials of the "ijk" kernel on the 2×2 scenario, plus
the degenerate N = 0 run. -/
theorem C3_checksum_cap_witness :
    (runSingle 5 (fun t => t) (multiply 'i' 'j' 'k') A2 B2 zeroMat 2).2
      = ∑ t in Finset.range (min 10000 (2 * 2)),
          (multiply 'i' 'j' 'k' A2 B2 zeroMat 2) (t / 2) (t % 2) :=
  C3_checksum_cap.1 5 (fun t => t) (multiply 'i' 'j' 'k') A2 B2 zeroMat 2 (by decide)

/-- Claim C4: for `trialCount ≥ 1` the average returned by the trial runner
is `totalMicroseconds / trialCount` with real-valued division — the exact
arithmetic mean of the per-trial integer microsecond counts — while timing
is summed across all trials and the accumulator handed to every kernel
invocation is the zeroed matrix. -/
theorem C4_average_is_mean (trials : ℕ) (times : ℕ → ℕ)
    (mmult : Mat → Mat → Mat → ℕ → Mat) (A B C0 : Mat) (N : ℕ)
    (htr : 1 ≤ trials) :
    (runSingle trials times mmult A B C0 N).1
      = (∑ t in Finset.range trials, (times t : ℚ)) / (trials : ℚ)
    ∧ (runSingleDiv trials times).num
      = ((∑ t in Finset.range trials, times t : ℕ) : ℚ)
    ∧ (runSingle trials times mmult A B C0 N).2
      = checksum (mmult A B zeroMat N) N := by
  have hnum : (((List.range trials).map times).sum : ℚ)
      = ∑ t in Finset.range trials, (times t : ℚ) := by
    rw [list_range_map_sum_nat]
    push_cast
    rfl
  refine ⟨?_, ?_, ?_⟩
  · simp only [runSingle, avgValue, runSingleDiv, hnum]
  · simp only [runSingleDiv, list_range_map_sum_nat]
  · have hne : List.range trials ≠ [] := by
      simp [List.range_eq_nil]
      omega
    simp only [runSingle, foldl_const_of_ne_nil _ _ hne]

/-- Witness for C4: three trials timed 1, 2, 3 microseconds average to 2. -/
theorem C4_average_is_mean_witness :
    (runSingle 3 (fun t => t + 1) (multiply 'i' 'j' 'k') A2 B2 zeroMat 2).1
      = (∑ t in Finset.range 3, ((t + 1 : ℕ) : ℚ)) / (3 : ℚ) :=
  (C4_average_is_mean 3 (fun t => t + 1) (multiply 'i' 'j' 'k') A2 B2 zeroMat 2
    (by decide)).1

/-- Claim C7: calling the trial runner with `trialCount = 0` reaches the
average computation unguarded: zero trials run (so the summed time is 0),
and the division performed has denominator 0 — the result is the junk value
of dividing zero by zero rather than an error. -/
theorem C7_zero_trials_divides_by_zero (times : ℕ → ℕ)
    (mmult : Mat → Mat → Mat → ℕ → Mat) (A B C0 : Mat) (N : ℕ) :
    (runSingleDiv 0 times).den = 0
    ∧ (runSingleDiv 0 times).num = 0
    ∧ (runSingle 0 times mmult A B C0 N).1 = avgValue ⟨0, 0⟩ := by
  refine ⟨rfl, by simp [runSingleDiv], ?_⟩
  simp [runSingle, runSingleDiv, avgValue]

/-! ### Result store (`ResultsType`, src/mmult.cpp:56-58, 152, 167) -/

/-- `ResultKeyType = std::pair<std::uint32_t, std::string>`. -/
abbrev ResultKey := ℕ × String

/-- `ResultValueType = std::pair<float, ValueType>`: (average time, checksum). -/
abbrev ResultValue := ℚ × ℤ

/-- `ResultsType = std::map<ResultKeyType, ResultValueType>`, embedded as an
association list in insertion order (key order is irrelevant here: all
access is by exact key). -/
abbrev Store := List (ResultKey × ResultValue)

/-- `results.insert ({key, value})` (src/mmult.cpp:167): `std::map::insert`
adds the binding only when the key is not already present. -/
def storeInsert (st : Store) (k : ResultKey) (v : ResultValue) : Store :=
  if (st.find? (fun p => decide (p.1 = k))).isSome then st else st ++ [(k, v)]

/-- Lookup by exact key (`results.at (key)` / `results[key]` on present keys). -/
def storeLookup (st : Store) (k : ResultKey) : Option ResultValue :=
  (st.find? (fun p => decide (p.1 = k))).map (fun p => p.2)

theorem storeLookup_none_iff (st : Store) (k : ResultKey) :
    storeLookup st k = none ↔ st.find? (fun p => decide (p.1 = k)) = none := by
  simp [storeLookup]

theorem storeInsert_of_present (st : Store) (k : ResultKey) (v : ResultValue)
    (h : (storeLookup st k).isSome) : storeInsert st k v = st := by
  rcases hf : st.find? (fun p => decide (p.1 = k)) with - | p
  · rw [storeLookup, hf] at h
    simp at h
  · simp [storeInsert, hf]

theorem storeLookup_insert_of_none (st : Store) (k : ResultKey) (v : ResultValue)
    (h : storeLookup st k = none) : storeLookup (storeInsert st k v) k = some v := by
  have h' := (storeLookup_none_iff st k).mp h
  rw [storeInsert, h']
  simp [storeLookup, List.find?_append, h', List.find?_cons_of_pos]

theorem storeLookup_insert_preserve (st : Store) (k k' : ResultKey)
    (v v' : ResultValue) (h : storeLookup st k = some v) :
    storeLookup (storeInsert st k' v') k = some v := by
  rcases hf : st.find? (fun p => decide (p.1 = k)) with - | p
  · rw [storeLookup, hf] at h
    simp at h
  · rcases hf' : st.find? (fun p => decide (p.1 = k')) with - | q
    · rw [storeInsert, hf']
      simp only [Option.isSome_none, Bool.false_eq_true, if_false]
      rw [storeLookup, List.find?_append, hf]
      rw [storeLookup, hf] at h
      simpa using h
    · rw [storeInsert, hf']
      simpa [storeLookup, hf] using h

theorem storeLookup_insert_of_ne (st : Store) (k k' : ResultKey)
    (v' : ResultValue) (hne : k ≠ k') (h : storeLookup st k = none) :
    storeLookup (storeInsert st k' v') k = none := by
  have h' := (storeLookup_none_iff st k).mp h
  rcases hf' : st.find? (fun p => decide (p.1 = k')) with - | q
  · rw [storeInsert, hf']
    simp only [Option.isSome_none, Bool.false_eq_true, if_false]
    rw [storeLookup, List.find?_append, h']
    simp [List.find?, hne.symm]
  · rw [storeInsert, hf']
    simpa [storeLookup] using h'

/-- Counterexample to claim C6 as stated: after inserting the same key
twice, the Result Store returns the value of the FIRST insertion, not the
last one — `std::map::insert` does not overwrite. -/
theorem C6_last_write_wins_counterexample :
    storeLookup
        (storeInsert (storeInsert [] (2, "ijk") (1, 134)) (2, "ijk") (7, 999))
        (2, "ijk")
      ≠ some (7, 999) := by
  decide

/-- Claim C6 (amended): inserting into the Result Store with a key that is
already present is a silent no-op — the store is unchanged and a lookup
returns the value from the first insertion (first write wins). -/
theorem C6_insert_first_write_wins :
    (∀ (st : Store) (k : ResultKey) (v : ResultValue),
      (storeLookup st k).isSome → storeInsert st k v = st)
    ∧ (∀ (k : ResultKey) (v1 v2 : ResultValue),
        storeLookup (storeInsert (storeInsert [] k v1) k v2) k = some v1) := by
  constructor
  · exact storeInsert_of_present
  · intro k v1 v2
    have h0 : storeLookup ([] : Store) k = none := rfl
    have h1 := storeLookup_insert_of_none [] k v1 h0
    exact storeLookup_insert_preserve _ k k v1 v2 h1

/-- Witness for C6 (amended): a second insertion under a present key leaves
the concrete store untouched. -/
theorem C6_insert_first_write_wins_witness :
    storeInsert [((2, "ijk"), (1, 134))] (2, "ijk") (7, 999)
      = [((2, "ijk"), (1, 134))] :=
  C6_insert_first_write_wins.1 [((2, "ijk"), (1, 134))] (2, "ijk") (7, 999)
    (by decide)

/-! ### Configuration resolution (src/mmult.cpp:108-145) -/

/-- The fixed default sweep sizes of `--all` (src/mmult.cpp:126). -/
def DEFAULT_SIZES : List ℕ := [100, 200, 300, 400, 500]

/-- The size/order list resolution of `main` (src/mmult.cpp:108-145):
`RUN_ALL` is the `--all` flag; `CUSTOM` holds when both `--sizes` and
`--traversals` were supplied or `--all` was.  With `--all` the size list is
replaced by the default sweep and the `std::map` keys are appended to the
order list via `back_inserter`; otherwise, when not `CUSTOM`, both lists
are overwritten by one interactively read `(N, order)` pair. -/
def resolveConfig (sizesOpt : Option (List ℕ)) (travOpt : Option (List String))
    (runAll : Bool) (interN : ℕ) (interOrder : String) : List ℕ × List String :=
  let sizeList := sizesOpt.getD []
  let orderList := travOpt.getD []
  let custom := (sizesOpt.isSome && travOpt.isSome) || runAll
  if runAll then (DEFAULT_SIZES, orderList ++ SIX_ORDERS)
  else if custom then (sizeList, orderList)
  else ([interN], [interOrder])

/-- Claim C9: if exactly one of `--sizes` and `--traversals` is supplied and
`--all` is absent, the program falls back to interactive mode: the resolved
configuration is the single interactively read `(N, order)` pair, and the
supplied command-line list is discarded. -/
theorem C9_single_option_falls_back_to_interactive
    (sizesOpt : Option (List ℕ)) (travOpt : Option (List String))
    (interN : ℕ) (interOrder : String)
    (h : sizesOpt.isSome ≠ travOpt.isSome) :
    resolveConfig sizesOpt travOpt false interN interOrder
      = ([interN], [interOrder]) := by
  rcases sizesOpt with - | szs <;> rcases travOpt with - | trs <;>
    simp_all [resolveConfig]

/-- Witness for C9: `--sizes 7` alone resolves to the interactive pair. -/
theorem C9_single_option_falls_back_to_interactive_witness :
    resolveConfig (some [7]) none false 4 "ikj" = ([4], ["ikj"]) :=
  C9_single_option_falls_back_to_interactive (some [7]) none 4 "ikj" (by decide)

/-! ### Input generation and the experiment driver (src/mmult.cpp:147-179) -/

/-- Modelled from the spec: the pseudorandom engine `std::mt19937_64` and
`std::uniform_int_distribution<int> {0, 4}` (src/mmult.cpp:52-53, 148-150)
are standard-library components whose code is not part of this repository,
and the distribution's algorithm is implementation-defined.  Per the spec
they form a deterministic generator, seeded once from the configured seed,
drawing integers from the fixed range 0–4 inclusive.  Modelled as a 64-bit
linear congruential engine whose outputs are reduced mod 5; one engine step. -/
def engineStep (s : ℕ) : ℕ := (6364136223846793005 * s + 1442695040888963407) % 2 ^ 64

/-- The engine state after `n` steps from the configured seed. -/
def engineState (seed : ℕ) : ℕ → ℕ
  | 0 => seed % 2 ^ 64
  | n + 1 => engineStep (engineState seed n)

/-- The `k`-th value drawn from the generator (`gen()`], in 0–4. -/
def draw (seed k : ℕ) : ℕ := engineState seed (k + 1) % 5

/-- `std::generate_n (M.data(), M.num_elements(), gen)` (src/mmult.cpp:159-160):
fill an N×N matrix row-major with consecutive draws; `off` draws were
consumed by earlier `generate_n` calls of the sweep. -/
def genMatrix (seed off N : ℕ) : Mat :=
  fun r c => if r < N ∧ c < N then (draw seed (off + (r * N + c)) : ℤ) else 0

/-- The inner order loop (src/mmult.cpp:162-178): for each requested order,
look the label up in `FUNCTION_MAP` — an unknown label throws, is caught,
and aborts the process (`.error`) — otherwise run the trials and insert the
result under key `(N, order)`.  `times (N, o) t` is the measured elapsed
time of trial `t` of pair `(N, o)`. -/
def driveOrders (trials : ℕ) (times : ResultKey → ℕ → ℕ) (N : ℕ) (A B : Mat) :
    List String → Store → Except String Store
  | [], st => .ok st
  | o :: rest, st =>
    match lookupFn o with
    | none => .error ("invalid traversal provided: " ++ o)
    | some f =>
      driveOrders trials times N A B rest
        (storeInsert st (N, o) (runSingle trials (times (N, o)) f A B zeroMat N))

/-- The outer size loop (src/mmult.cpp:154-179): per size, generate A then B
from the shared engine (consuming `2·N²` draws) and run all orders. -/
def driveSizes (seed trials : ℕ) (times : ResultKey → ℕ → ℕ)
    (orders : List String) : List ℕ → ℕ → Store → Except String Store
  | [], _, st => .ok st
  | N :: rest, off, st =>
    match driveOrders trials times N (genMatrix seed off N)
        (genMatrix seed (off + N * N) N) orders st with
    | .error e => .error e
    | .ok st' => driveSizes seed trials times orders rest (off + 2 * (N * N)) st'

/-- The whole sweep: engine seeded once, store initially empty. -/
def drive (seed trials : ℕ) (times : ResultKey → ℕ → ℕ)
    (sizes : List ℕ) (orders : List String) : Except String Store :=
  driveSizes seed trials times orders sizes 0 []

/-- The first requested label that is not a `FUNCTION_MAP` key. -/
def firstInvalid (orders : List String) : Option String :=
  orders.find? (fun o => (lookupFn o).isNone)

theorem driveOrders_error_of_firstInvalid (trials : ℕ)
    (times : ResultKey → ℕ → ℕ) (N : ℕ) (A B : Mat) :
    ∀ (orders : List String) (o : String) (st : Store),
      firstInvalid orders = some o →
      driveOrders trials times N A B orders st
        = .error ("invalid traversal provided: " ++ o) := by
  intro orders
  induction orders with
  | nil => intro o st h; simp [firstInvalid] at h
  | cons o' rest ih =>
    intro o st h
    rcases hlf : lookupFn o' with - | f
    · have heq : o' = o := by
        rw [firstInvalid, List.find?_cons_of_pos _ (by simp [hlf])] at h
        exact Option.some.inj h
      subst heq
      simp [driveOrders, hlf]
    · have h' : firstInvalid rest = some o := by
        rw [firstInvalid, List.find?_cons_of_neg _ (by simp [hlf])] at h
        exact h
      simp only [driveOrders, hlf]
      exact ih o _ h'

/-- Claim C2: if a requested loop order label is not one of the six known
permutations, the run fails at the dispatch of the first such (size, order)
pair: the result is process failure carrying the diagnostic
`invalid traversal provided: <order>`, and no result table is ever
produced (the run never reaches a `.ok` store). -/
theorem C2_invalid_label_aborts (seed trials : ℕ) (times : ResultKey → ℕ → ℕ)
    (sizes : List ℕ) (orders : List String) (o : String)
    (hs : sizes ≠ []) (ho : firstInvalid orders = some o) :
    drive seed trials times sizes orders
      = .error ("invalid traversal provided: " ++ o)
    ∧ ∀ st, drive seed trials times sizes orders ≠ .ok st := by
  rcases sizes with - | ⟨N, rest⟩
  · exact absurd rfl hs
  · have herr := driveOrders_error_of_firstInvalid trials times N
      (genMatrix seed 0 N) (genMatrix seed (0 + N * N) N) orders o [] ho
    refine ⟨?_, ?_⟩
    · rw [drive]
      simp only [driveSizes, herr]
    · intro st
      rw [drive]
      simp only [driveSizes, herr]
      intro hcontra
      exact Except.noConfusion hcontra

/-- Witness for C2: the label `xyz` among valid ones aborts the sweep. -/
theorem C2_invalid_label_aborts_witness :
    drive 0 5 (fun _ _ => 0) [2] ["ijk", "xyz"]
      = .error ("invalid traversal provided: " ++ "xyz")
    ∧ ∀ st, drive 0 5 (fun _ _ => 0) [2] ["ijk", "xyz"] ≠ .ok st :=
  C2_invalid_label_aborts 0 5 (fun _ _ => 0) [2] ["ijk", "xyz"] "xyz"
    (by simp) (by decide)

/-! ### Helpers for the reproducibility claims -/

theorem lookupFn_eq_some (o : String) (f : Mat → Mat → Mat → ℕ → Mat)
    (h : lookupFn o = some f) :
    (o = "ijk" ∧ f = multiply 'i' 'j' 'k') ∨ (o = "ikj" ∧ f = multiply 'i' 'k' 'j')
    ∨ (o = "jik" ∧ f = multiply 'j' 'i' 'k') ∨ (o = "jki" ∧ f = multiply 'j' 'k' 'i')
    ∨ (o = "kij" ∧ f = multiply 'k' 'i' 'j') ∨ (o = "kji" ∧ f = multiply 'k' 'j' 'i') := by
  rw [lookupFn, FUNCTION_MAP] at h
  by_cases h1 : "ijk" = o
  · rw [List.find?_cons_of_pos _ (by simp [h1])] at h
    simp only [Option.map_some', Option.some.injEq] at h
    exact Or.inl ⟨h1.symm, h.symm⟩
  rw [List.find?_cons_of_neg _ (by simp [h1])] at h
  by_cases h2 : "ikj" = o
  · rw [List.find?_cons_of_pos _ (by simp [h2])] at h
    simp only [Option.map_some', Option.some.injEq] at h
    exact Or.inr (Or.inl ⟨h2.symm, h.symm⟩)
  rw [List.find?_cons_of_neg _ (by simp [h2])] at h
  by_cases h3 : "jik" = o
  · rw [List.find?_cons_of_pos _ (by simp [h3])] at h
    simp only [Option.map_some', Option.some.injEq] at h
    exact Or.inr (Or.inr (Or.inl ⟨h3.symm, h.symm⟩))
  rw [List.find?_cons_of_neg _ (by simp [h3])] at h
  by_cases h4 : "jki" = o
  · rw [List.find?_cons_of_pos _ (by simp [h4])] at h
    simp only [Option.map_some', Option.some.injEq] at h
    exact Or.inr (Or.inr (Or.inr (Or.inl ⟨h4.symm, h.symm⟩)))
  rw [List.find?_cons_of_neg _ (by simp [h4])] at h
  by_cases h5 : "kij" = o
  · rw [List.find?_cons_of_pos _ (by simp [h5])] at h
    simp only [Option.map_some', Option.some.injEq] at h
    exact Or.inr (Or.inr (Or.inr (Or.inr (Or.inl ⟨h5.symm, h.symm⟩))))
  rw [List.find?_cons_of_neg _ (by simp [h5])] at h
  by_cases h6 : "kji" = o
  · rw [List.find?_cons_of_pos _ (by simp [h6])] at h
    simp only [Option.map_some', Option.some.injEq] at h
    exact Or.inr (Or.inr (Or.inr (Or.inr (Or.inr ⟨h6.symm, h.symm⟩))))
  rw [List.find?_cons_of_neg _ (by simp [h6])] at h
  simp at h

theorem lookupFn_correct (o : String) (f : Mat → Mat → Mat → ℕ → Mat)
    (h : lookupFn o = some f) (A B : Mat) (N r c : ℕ) (hr : r < N) (hc : c < N) :
    f A B zeroMat N r c = matProd A B N r c := by
  rcases lookupFn_eq_some o f h with
    ⟨-, rfl⟩ | ⟨-, rfl⟩ | ⟨-, rfl⟩ | ⟨-, rfl⟩ | ⟨-, rfl⟩ | ⟨-, rfl⟩
  · simpa [zeroMat] using multiply_ijk_eq A B zeroMat N r c hr hc
  · simpa [zeroMat] using multiply_ikj_eq A B zeroMat N r c hr hc
  · simpa [zeroMat] using multiply_jik_eq A B zeroMat N r c hr hc
  · simpa [zeroMat] using multiply_jki_eq A B zeroMat N r c hr hc
  · simpa [zeroMat] using multiply_kij_eq A B zeroMat N r c hr hc
  · simpa [zeroMat] using multiply_kji_eq A B zeroMat N r c hr hc

theorem checksum_congr (X Y : Mat) (N : ℕ)
    (h : ∀ r c, r < N → c < N → X r c = Y r c) : checksum X N = checksum Y N := by
  rw [checksum, checksum, list_range_map_sum, list_range_map_sum]
  refine Finset.sum_congr rfl ?_
  intro t ht
  rcases Nat.eq_zero_or_pos N with hN | hN
  · subst hN
    simp [CHECKSUM_MAX] at ht
  · have ht' : t < N * N :=
      lt_of_lt_of_le (Finset.mem_range.mp ht) (min_le_right _ _)
    exact h _ _ ((Nat.div_lt_iff_lt_mul hN).mpr ht') (Nat.mod_lt _ hN)

theorem runSingle_checksum (trials : ℕ) (ts : ℕ → ℕ)
    (f : Mat → Mat → Mat → ℕ → Mat) (A B C0 : Mat) (N : ℕ) (htr : 1 ≤ trials) :
    (runSingle trials ts f A B C0 N).2 = checksum (f A B zeroMat N) N := by
  have hne : List.range trials ≠ [] := by
    simp [List.range_eq_nil]
    omega
  simp only [runSingle, foldl_const_of_ne_nil _ _ hne]

theorem driveOrders_preserve (trials : ℕ) (times : ResultKey → ℕ → ℕ) (N : ℕ)
    (A B : Mat) :
    ∀ (orders : List String) (st st' : Store) (k : ResultKey) (v : ResultValue),
      driveOrders trials times N A B orders st = .ok st' →
      storeLookup st k = some v → storeLookup st' k = some v := by
  intro orders
  induction orders with
  | nil =>
    intro st st' k v h hv
    simp only [driveOrders, Except.ok.injEq] at h
    exact h ▸ hv
  | cons o rest ih =>
    intro st st' k v h hv
    rcases hlf : lookupFn o with - | f
    · simp only [driveOrders, hlf] at h
      exact Except.noConfusion h
    · simp only [driveOrders, hlf] at h
      exact ih _ _ _ _ h (storeLookup_insert_preserve _ _ _ _ _ hv)

theorem driveOrders_lookup (trials : ℕ) (times : ResultKey → ℕ → ℕ) (N : ℕ)
    (A B : Mat) :
    ∀ (orders : List String) (st0 st : Store),
      driveOrders trials times N A B orders st0 = .ok st →
      ∀ o ∈ orders, storeLookup st0 (N, o) = none →
        ∃ f, lookupFn o = some f ∧
          storeLookup st (N, o)
            = some (runSingle trials (times (N, o)) f A B zeroMat N) := by
  intro orders
  induction orders with
  | nil =>
    intro st0 st h o ho
    simp at ho
  | cons o' rest ih =>
    intro st0 st h o ho habs
    rcases hlf : lookupFn o' with - | f'
    · simp only [driveOrders, hlf] at h
      exact Except.noConfusion h
    · simp only [driveOrders, hlf] at h
      by_cases heq : o = o'
      · subst heq
        refine ⟨f', hlf, ?_⟩
        have hins := storeLookup_insert_of_none st0 (N, o)
          (runSingle trials (times (N, o)) f' A B zeroMat N) habs
        exact driveOrders_preserve trials times N A B rest _ _ _ _ h hins
      · have ho' : o ∈ rest := by
          rcases List.mem_cons.mp ho with h1 | h1
          · exact absurd h1 heq
          · exact h1
        have habs' : storeLookup
            (storeInsert st0 (N, o')
              (runSingle trials (times (N, o')) f' A B zeroMat N)) (N, o) = none :=
          storeLookup_insert_of_ne _ _ _ _ (by simp [heq]) habs
        exact ih _ _ h o ho' habs'

/-- The time-independent projection of a store: keys with checksums only. -/
def chkOf (st : Store) : List (ResultKey × ℤ) := st.map (fun p => (p.1, p.2.2))

/-- The time-independent projection of a run outcome. -/
def chkView : Except String Store → Except String (List (ResultKey × ℤ))
  | .error e => .error e
  | .ok st => .ok (chkOf st)

theorem find?_congr_of_chkOf (st1 : Store) :
    ∀ (st2 : Store), chkOf st1 = chkOf st2 → ∀ k : ResultKey,
      (st1.find? (fun p => decide (p.1 = k))).isSome
        = (st2.find? (fun p => decide (p.1 = k))).isSome := by
  induction st1 with
  | nil =>
    intro st2 h k
    cases st2 with
    | nil => rfl
    | cons q t2 => simp [chkOf] at h
  | cons p t1 ih =>
    intro st2 h k
    cases st2 with
    | nil => simp [chkOf] at h
    | cons q t2 =>
      simp only [chkOf, List.map_cons, List.cons.injEq] at h
      obtain ⟨hpq, ht⟩ := h
      have hk : p.1 = q.1 := congrArg (fun z : ResultKey × ℤ => z.1) hpq
      cases hdec : decide (q.1 = k) with
      | false =>
        rw [List.find?_cons_of_neg _ (by simp only [hk, hdec]; simp),
          List.find?_cons_of_neg _ (by simp only [hdec]; simp)]
        exact ih t2 ht k
      | true =>
        rw [List.find?_cons_of_pos _ (by simp only [hk, hdec]),
          List.find?_cons_of_pos _ (by simp only [hdec])]
        rfl

theorem chkOf_insert (st1 st2 : Store) (h : chkOf st1 = chkOf st2)
    (k : ResultKey) (v1 v2 : ResultValue) (hv : v1.2 = v2.2) :
    chkOf (storeInsert st1 k v1) = chkOf (storeInsert st2 k v2) := by
  rw [storeInsert, storeInsert, find?_congr_of_chkOf st1 st2 h k]
  by_cases hp : (st2.find? (fun p => decide (p.1 = k))).isSome
  · simp [hp, h]
  · simp only [hp, if_false]
    simp [chkOf, List.map_append, hv]
    exact h

theorem runSingle_snd_times (trials : ℕ) (t1 t2 : ℕ → ℕ)
    (f : Mat → Mat → Mat → ℕ → Mat) (A B C0 : Mat) (N : ℕ) :
    (runSingle trials t1 f A B C0 N).2 = (runSingle trials t2 f A B C0 N).2 := rfl

theorem driveOrders_chk (trials : ℕ) (t1 t2 : ResultKey → ℕ → ℕ) (N : ℕ)
    (A B : Mat) :
    ∀ (orders : List String) (st1 st2 : Store), chkOf st1 = chkOf st2 →
      chkView (driveOrders trials t1 N A B orders st1)
        = chkView (driveOrders trials t2 N A B orders st2) := by
  intro orders
  induction orders with
  | nil =>
    intro st1 st2 h
    simp only [driveOrders, chkView, h]
  | cons o rest ih =>
    intro st1 st2 h
    rcases hlf : lookupFn o with - | f
    · simp only [driveOrders, hlf, chkView]
    · simp only [driveOrders, hlf]
      exact ih _ _ (chkOf_insert st1 st2 h (N, o) _ _
        (runSingle_snd_times trials (t1 (N, o)) (t2 (N, o)) f A B zeroMat N))

theorem driveSizes_chk (seed trials : ℕ) (t1 t2 : ResultKey → ℕ → ℕ)
    (orders : List String) :
    ∀ (sizes : List ℕ) (off : ℕ) (st1 st2 : Store), chkOf st1 = chkOf st2 →
      chkView (driveSizes seed trials t1 orders sizes off st1)
        = chkView (driveSizes seed trials t2 orders sizes off st2) := by
  intro sizes
  induction sizes with
  | nil =>
    intro off st1 st2 h
    simp only [driveSizes, chkView, h]
  | cons N rest ih =>
    intro off st1 st2 h
    have hio := driveOrders_chk trials t1 t2 N (genMatrix seed off N)
      (genMatrix seed (off + N * N) N) orders st1 st2 h
    simp only [driveSizes]
    rcases h1 : driveOrders trials t1 N (genMatrix seed off N)
        (genMatrix seed (off + N * N) N) orders st1 with e1 | st1'
    <;> rcases h2 : driveOrders trials t2 N (genMatrix seed off N)
        (genMatrix seed (off + N * N) N) orders st2 with e2 | st2'
    <;> rw [h1, h2] at hio
    · simpa [chkView] using hio
    · simp [chkView] at hio
    · simp [chkView] at hio
    · simp only [chkView, Except.ok.injEq] at hio
      exact ih _ _ _ hio

/-- Claim C8: with a fixed seed and identical configuration the sweep is
reproducible — the (size, order, checksum) view of two runs is identical no
matter what wall-clock times the trials measure; every generated matrix
entry is drawn from 0–4 inclusive; and because the same A, B are generated
once per size and reused for every order, all orders evaluated at one size
record the same checksum. -/
theorem C8_fixed_seed_reproducibility :
    (∀ (seed trials : ℕ) (sizes : List ℕ) (orders : List String)
        (t1 t2 : ResultKey → ℕ → ℕ),
      chkView (drive seed trials t1 sizes orders)
        = chkView (drive seed trials t2 sizes orders))
    ∧ (∀ seed off N r c : ℕ,
        0 ≤ genMatrix seed off N r c ∧ genMatrix seed off N r c ≤ 4)
    ∧ (∀ (seed trials : ℕ) (times : ResultKey → ℕ → ℕ) (N : ℕ)
        (orders : List String) (o1 o2 : String) (st : Store),
        1 ≤ trials → o1 ∈ orders → o2 ∈ orders →
        drive seed trials times [N] orders = .ok st →
        ∃ v1 v2, storeLookup st (N, o1) = some v1
          ∧ storeLookup st (N, o2) = some v2 ∧ v1.2 = v2.2) := by
  refine ⟨?_, ?_, ?_⟩
  · intro seed trials sizes orders t1 t2
    exact driveSizes_chk seed trials t1 t2 orders sizes 0 [] [] rfl
  · intro seed off N r c
    rw [genMatrix]
    by_cases h : r < N ∧ c < N
    · rw [if_pos h]
      have hlt : draw seed (off + (r * N + c)) < 5 := by
        rw [draw]
        exact Nat.mod_lt _ (by norm_num)
      refine ⟨Int.natCast_nonneg _, ?_⟩
      exact_mod_cast Nat.lt_succ_iff.mp hlt
    · rw [if_neg h]
      exact ⟨le_refl 0, by norm_num⟩
  · intro seed trials times N orders o1 o2 st htr h1 h2 hdr
    rw [drive] at hdr
    simp only [driveSizes] at hdr
    rcases hdo : driveOrders trials times N (genMatrix seed 0 N)
        (genMatrix seed (0 + N * N) N) orders [] with e | st1
    · rw [hdo] at hdr
      simp at hdr
    · rw [hdo] at hdr
      have hst : st1 = st := by simpa using hdr
      subst hst
      obtain ⟨f1, hlf1, hv1⟩ :=
        driveOrders_lookup trials times N _ _ orders [] st1 hdo o1 h1 rfl
      obtain ⟨f2, hlf2, hv2⟩ :=
        driveOrders_lookup trials times N _ _ orders [] st1 hdo o2 h2 rfl
      refine ⟨_, _, hv1, hv2, ?_⟩
      rw [runSingle_checksum _ _ _ _ _ _ _ htr,
        runSingle_checksum _ _ _ _ _ _ _ htr]
      exact checksum_congr _ _ N (fun r c hr hc => by
        rw [lookupFn_correct o1 f1 hlf1 _ _ N r c hr hc,
          lookupFn_correct o2 f2 hlf2 _ _ N r c hr hc])

/-- Witness for C8: time-independence on a tiny run, the 0-4 range of a
generated entry, and equal checksums across two orders at size 2, seed 0. -/
theorem C8_fixed_seed_reproducibility_witness :
    chkView (drive 0 1 (fun _ _ => 0) [1] ["ijk"])
        = chkView (drive 0 1 (fun _ _ => 7) [1] ["ijk"])
    ∧ (0 ≤ genMatrix 0 0 2 1 1 ∧ genMatrix 0 0 2 1 1 ≤ 4)
    ∧ (∃ v1 v2,
        storeLookup [((2, "ijk"), (avgValue (runSingleDiv 1 (fun _ => 0)), (23 : ℤ))),
                     ((2, "kji"), (avgValue (runSingleDiv 1 (fun _ => 0)), (23 : ℤ)))]
            (2, "ijk") = some v1
        ∧ storeLookup [((2, "ijk"), (avgValue (runSingleDiv 1 (fun _ => 0)), (23 : ℤ))),
                       ((2, "kji"), (avgValue (runSingleDiv 1 (fun _ => 0)), (23 : ℤ)))]
            (2, "kji") = some v2
        ∧ v1.2 = v2.2) := by
  refine ⟨C8_fixed_seed_reproducibility.1 0 1 [1] ["ijk"] (fun _ _ => 0) (fun _ _ => 7),
    C8_fixed_seed_reproducibility.2.1 0 0 2 1 1, ?_⟩
  exact C8_fixed_seed_reproducibility.2.2 0 1 (fun _ _ => 0) 2 ["ijk", "kji"]
    "ijk" "kji" _ (by decide) (by decide) (by decide) (by rfl)

/-- The number of draws a list of sizes consumes, per size `2·N²`, halved:
`sumSq sizes` squares and sums, so `2 * sumSq sizes` draws are consumed. -/
def sumSq (l : List ℕ) : ℕ := (l.map (fun m => m * m)).sum

/-- Claim C10: the engine is seeded once and its state is threaded across
the whole sweep without re-seeding — running the sweep over `pre ++ rest`
continues `rest` at draw offset advanced by exactly `2·Σ N²` over `pre` —
so the matrices generated for a size depend on which sizes precede it, and
concretely size 1 after predecessor 2 (under seed 0) receives a different
matrix than size 1 run first. -/
theorem C10_engine_threaded_across_sweep :
    (∀ (seed trials : ℕ) (times : ResultKey → ℕ → ℕ) (orders : List String)
        (pre rest : List ℕ) (off : ℕ) (st : Store),
      driveSizes seed trials times orders (pre ++ rest) off st
        = match driveSizes seed trials times orders pre off st with
          | .error e => .error e
          | .ok st' =>
              driveSizes seed trials times orders rest (off + 2 * sumSq pre) st')
    ∧ genMatrix 0 0 1 0 0 ≠ genMatrix 0 (2 * sumSq [2]) 1 0 0 := by
  constructor
  · intro seed trials times orders pre rest
    induction pre with
    | nil =>
      intro off st
      simp [driveSizes, sumSq]
    | cons N pre' ih =>
      intro off st
      rcases hdo : driveOrders trials times N (genMatrix seed off N)
          (genMatrix seed (off + N * N) N) orders st with e | st1
      · simp only [List.cons_append, driveSizes, hdo]
      · simp only [List.cons_append, driveSizes, hdo]
        rw [show pre'.append rest = pre' ++ rest from rfl, ih]
        have harith : off + 2 * (N * N) + 2 * sumSq pre'
            = off + 2 * sumSq (N :: pre') := by
          simp only [sumSq, List.map_cons, List.sum_cons]
          ring
        simp only [harith]
  · decide
